import Mathlib

set_option maxRecDepth 8000

/-!
Verification development for the Atlas chat-stream client:
the stream decoder in src/frontend/src/api/chat.ts, the turn assembler in
the useChat hook, the pub/sub results store in
src/frontend/src/stores/resultsStore.ts, and the result-mapper helpers in
src/frontend/src/components/Chat/ToolCallIndicator.tsx.
Strings of the source are modelled as Lean strings; chunked byte input is
modelled as lists of characters, the byte-level UTF-8 reassembly being done
below the modelled layer by the platform text decoder.
-/

namespace Atlas

/-- A scalar JavaScript value as it occurs in the loosely typed result
records handled by the result mapper.  Absence of a field is represented by
the surrounding `Option`, a present `null` by `JsVal.null`. -/
inductive JsVal where
  | str (s : String)
  | num (n : Int)
  | bool (b : Bool)
  | null
deriving DecidableEq, Repr

/-- JavaScript truthiness test restricted to the scalar values above:
the empty string, zero, `false` and `null` are falsy. -/
def jsFalsy : JsVal → Bool
  | .str s => s = ""
  | .num n => n = 0
  | .bool b => !b
  | .null => true

/-- The JavaScript `String(v)` coercion on scalar values. -/
def jsString : JsVal → String
  | .str s => s
  | .num n => toString n
  | .bool b => if b then "true" else "false"
  | .null => "null"

/-- A loosely typed record (a JavaScript object) as a field list; keys are
unique, lookup returns the first binding. -/
abbrev JsRecord := List (String × JsVal)

/-- Property access `o.f`: `none` both for an absent field. -/
def lookupField : JsRecord → String → Option JsVal
  | [], _ => none
  | (k, v) :: rest, f => if k = f then some v else lookupField rest f

/-- The nullish-coalescing chain `o.f1 ?? o.f2 ?? ...`: the first field that
is present with a non-`null` value. -/
def probeNullish (o : JsRecord) : List String → Option JsVal
  | [] => none
  | f :: fs =>
    match lookupField o f with
    | some v => if v = JsVal.null then probeNullish o fs else some v
    | none => probeNullish o fs

/-- The candidate title fields probed by `itemTitle`, in source order. -/
def titleFields : List String :=
  ["title", "subject", "name", "canonical_name", "item_description",
   "display_name", "pretty_id", "question", "text"]

/-- `itemTitle` from ToolCallIndicator.tsx, restricted to object inputs:
the nullish-coalescing probe over the candidate fields, then the falsiness
test `!val`, then `String(val).slice(0, 120)`. -/
def itemTitle (o : JsRecord) : String :=
  match probeNullish o titleFields with
  | none => "Result"
  | some v => if jsFalsy v then "Result" else (jsString v).take 120

/-- The title extraction as the claim words it: the first non-empty value
found by probing the candidate fields in priority order, `"Result"` when no
candidate yields a non-empty value. -/
def itemTitleClaimed (o : JsRecord) : String :=
  match titleFields.findSome?
      (fun f => (lookupField o f).bind
        (fun v => if v = JsVal.null ∨ jsString v = "" then none else some v)) with
  | none => "Result"
  | some v => jsString v

/-- The title extraction as amended: probing stops at the first present
non-null candidate field; a falsy stopping value still gives `"Result"`,
and a truthy one is stringified and truncated to 120 characters. -/
def itemTitleAmended (o : JsRecord) : String :=
  match titleFields.findSome?
      (fun f => (lookupField o f).bind
        (fun v => if v = JsVal.null then none else some v)) with
  | none => "Result"
  | some v => if jsFalsy v then "Result" else (jsString v).take 120

/-- The candidate date fields probed by `itemMeta`, in source order. -/
def dateFields : List String :=
  ["meeting_date", "date", "published_at", "submitted_on", "air_date"]

/-- The candidate status/category fields probed by `itemMeta`, in source
order. -/
def labelFields : List String :=
  ["governing_body", "status", "source", "station", "spoke_key", "schedule"]

/-- `parts.join(' · ')`: the JavaScript array join with a middot
separator, written structurally. -/
def joinDot : List String → String
  | [] => ""
  | [p] => p
  | p :: rest => p ++ " · " ++ joinDot rest

/-- `itemMeta` from ToolCallIndicator.tsx, restricted to object inputs and
parameterised by the platform date formatter: `fmt s = none` models
`formatDate` throwing, in which case the `catch` arm pushes the raw string.
The date probe ends in `?? ''` before `String(...)`, the label is pushed
only when truthy, and the parts are joined with a middot. -/
def itemMeta (fmt : String → Option String) (o : JsRecord) : Option String :=
  let dateStr : String :=
    match probeNullish o dateFields with
    | some v => jsString v
    | none => ""
  let parts₁ : List String :=
    if dateStr = "" then []
    else
      match fmt dateStr with
      | some s => [s]
      | none => [dateStr]
  let parts : List String :=
    parts₁ ++
      match probeNullish o labelFields with
      | some v => if jsFalsy v then [] else [jsString v]
      | none => []
  if parts = [] then none else some (joinDot parts)

/-- The secondary label as the claim words it: the first present, non-null
date-like field is stringified and, when non-empty, formatted by the
best-effort formatter with fallback to the raw string on failure; one
truthy status/category field is appended; absent parts are omitted and an
empty part list gives no label at all. -/
def itemMetaSpec (fmt : String → Option String) (o : JsRecord) : Option String :=
  let datePart : Option String :=
    (probeNullish o dateFields).bind (fun v =>
      let s := jsString v
      if s = "" then none else some ((fmt s).getD s))
  let labelPart : Option String :=
    (probeNullish o labelFields).bind (fun v =>
      if jsFalsy v then none else some (jsString v))
  match datePart, labelPart with
  | none, none => none
  | some d, none => some d
  | none, some l => some l
  | some d, some l => some (d ++ " · " ++ l)

/-- The `ToolResult` payload shape of api types: `success` required, `data`
and `error` optional (`error`'s present-`null` and absent cases are merged,
neither is distinguished by any consumer). -/
structure ToolResultVal where
  success : Bool
  data : Option JsVal
  errMsg : Option String
deriving DecidableEq, Repr

/-- Tool-call arguments: an opaque key-value object. -/
abbrev Args := List (String × JsVal)

/-- The `ToolCallRecord` kept by the turn assembler.  `result` is modelled
as optional so that absence is expressible (the indicator reads it through
optional chaining); the streaming code always supplies it. -/
structure ToolCallRecord where
  name : String
  arguments : Args
  result : Option ToolResultVal
deriving DecidableEq, Repr

/-- A decoded `ChatSSEEvent`, one variant per recognised `type` tag plus
`other` for a parseable frame whose `type` is none of the six (the decoder
yields it untyped and the assembler's switch ignores it).  All payload
fields are optional exactly as in the TypeScript interface. -/
inductive ChatSSEEvent where
  | conversationAssigned (id : Option Int)
  | token (content : Option String)
  | toolCall (name : Option String) (arguments : Option Args)
  | toolResult (name : Option String) (result : Option ToolResultVal)
  | done
  | errorEvent (content : Option String)
  | other
deriving DecidableEq, Repr

/-- The streaming assistant message as the caller observes it. -/
structure ChatMessage where
  content : String
  isStreaming : Bool
  toolCalls : Option (List ToolCallRecord)
deriving DecidableEq, Repr

/-- The mutable state of one `sendMessage` invocation of the useChat hook:
the accumulated `fullContent`, the `activeToolCalls` ref, the trailing
assistant message (the only one the event handlers touch), the recorded
conversation id and the error slot. -/
structure TurnState where
  fullContent : String
  activeToolCalls : List ToolCallRecord
  message : ChatMessage
  conversationId : Option Int
  errorMsg : Option String
deriving DecidableEq, Repr

/-- The state right after `sendMessage` appends the streaming assistant
placeholder. -/
def initTurn : TurnState :=
  { fullContent := ""
    activeToolCalls := []
    message := { content := "", isStreaming := true, toolCalls := none }
    conversationId := none
    errorMsg := none }

/-- `list[i] = record with result := some r`, the effect of
`activeToolCalls.current[idx] = ... result: event.result` at a valid
index; out-of-range leaves the list unchanged. -/
def setResultAt (l : List ToolCallRecord) (i : Nat) (r : ToolResultVal) :
    List ToolCallRecord :=
  match l.get? i with
  | some tc => l.set i { tc with result := some r }
  | none => l

/-- One iteration of the `for await ... switch (event.type)` loop of
`sendMessage`.  JavaScript truthiness of the guards is preserved: a zero
conversation id is not recorded, a missing token `content` contributes the
empty string, `tool_call` defaults name and arguments and initialises the
result to success-false, `tool_result` looks up the first record whose
name equals the event name and overwrites its result only when the event
carries one, and the tool-call list is re-published to the message in both
tool cases.  An `other` frame matches no case and is ignored. -/
def sendMessageStep (s : TurnState) (e : ChatSSEEvent) : TurnState :=
  match e with
  | .conversationAssigned id =>
    match id with
    | some n => if n ≠ 0 then { s with conversationId := some n } else s
    | none => s
  | .token content =>
    let fc := s.fullContent ++ content.getD ""
    { s with
      fullContent := fc
      message := { s.message with content := fc, isStreaming := true } }
  | .toolCall name arguments =>
    let tcs := s.activeToolCalls ++
      [{ name := name.getD "", arguments := arguments.getD [],
         result := some { success := false, data := none, errMsg := none } }]
    { s with
      activeToolCalls := tcs
      message := { s.message with toolCalls := some tcs } }
  | .toolResult name result =>
    let tcs :=
      match name, result with
      | some nm, some r =>
        match s.activeToolCalls.findIdx? (fun tc => tc.name = nm) with
        | some i => setResultAt s.activeToolCalls i r
        | none => s.activeToolCalls
      | _, _ => s.activeToolCalls
    { s with
      activeToolCalls := tcs
      message := { s.message with toolCalls := some tcs } }
  | .done =>
    { s with
      message :=
        { s.message with
          content := s.fullContent
          isStreaming := false
          toolCalls :=
            if s.activeToolCalls.isEmpty then none
            else some s.activeToolCalls } }
  | .errorEvent content =>
    let m := content.getD ""
    { s with errorMsg := some (if m = "" then "Unknown error" else m) }
  | .other => s

/-- The `finally` block of `sendMessage` as the source has it: after
clearing the hook-level streaming flag it runs a state updater whose
guard checks the trailing assistant message.  When that message is still
streaming, the updater builds a replacement message whose `content`
reads `fullContent` — but `fullContent` is let-declared inside the `try`
block (part_012 line 106) and is not in scope in the `finally` block
(line 185), so that commit is an out-of-scope reference: `tsc` rejects
it, and a transpile-only build raises a `ReferenceError` when the
updater is evaluated.  When the message is no longer streaming the guard
short-circuits, `fullContent` is never read, and the state is left
unchanged. -/
def finalizeStream (s : TurnState) : Except String TurnState :=
  if s.message.isStreaming then
    Except.error "ReferenceError: fullContent is not defined"
  else Except.ok s

/-- Run the event loop over a finite decoded event sequence. -/
def runEvents (evs : List ChatSSEEvent) : TurnState :=
  evs.foldl sendMessageStep initTurn

/-- The turn outcome after `sendMessage` returns: the event loop followed
by the `finally` commit, which can only succeed when a `done` event has
already cleared the message's streaming flag. -/
def runTurn (evs : List ChatSSEEvent) : Except String TurnState :=
  finalizeStream (runEvents evs)

/-- Resolution as the spec claims it, searching from the most recently
appended invocation: `some l'` when an unresolved invocation with the
given name exists (the latest such one receives the result), `none`
otherwise. -/
def resolveLatestAux (nm : String) (r : ToolResultVal) :
    List ToolCallRecord → Option (List ToolCallRecord)
  | [] => none
  | tc :: rest =>
    match resolveLatestAux nm r rest with
    | some rest' => some (tc :: rest')
    | none =>
      if tc.name = nm ∧ tc.result = none then
        some ({ tc with result := some r } :: rest)
      else none

/-- Resolution as the spec claims it, on the claim's own data model where
invocations are created with an absent result: the most recently appended
unresolved invocation whose name matches is resolved with the result, and
the list is unchanged when no such invocation exists. -/
def resolveLatestUnresolved (nm : String) (r : ToolResultVal)
    (l : List ToolCallRecord) : List ToolCallRecord :=
  (resolveLatestAux nm r l).getD l

/-- The claim-side state machine for tool invocations only: `toolCall`
appends an invocation with an absent result, `toolResult` applies
`resolveLatestUnresolved`, every other event leaves the list unchanged. -/
def claimedInvocationStep (l : List ToolCallRecord) :
    ChatSSEEvent → List ToolCallRecord
  | .toolCall name arguments =>
    l ++ [{ name := name.getD "", arguments := arguments.getD [], result := none }]
  | .toolResult name result =>
    match name, result with
    | some nm, some r => resolveLatestUnresolved nm r l
    | _, _ => l
  | _ => l

/-- First-match overwrite, written by structural recursion: the earliest
record whose name matches gets the new result, everything else is kept;
an absent match leaves the list unchanged.  This is the amended
description of the code's `tool_result` handling. -/
def updateFirstByName (nm : String) (r : ToolResultVal) :
    List ToolCallRecord → List ToolCallRecord
  | [] => []
  | tc :: rest =>
    if tc.name = nm then { tc with result := some r } :: rest
    else tc :: updateFirstByName nm r rest

/-- `text.split('\n')` on a character sequence: always a non-empty list of
newline-free pieces, one more piece than there are newlines. -/
def splitNl : List Char → List (List Char)
  | [] => [[]]
  | c :: cs =>
    match splitNl cs with
    | [] => [[]]
    | l :: ls => if c = '\n' then [] :: l :: ls else (c :: l) :: ls

/-- Prefix the first piece of a split: the piece list produced for
`p ++ b` when `p` is newline-free and `b` splits into the given pieces. -/
def consHead (p : List Char) : List (List Char) → List (List Char)
  | [] => [p]
  | l :: ls => (p ++ l) :: ls

/-- The protocol's record marker, `data: `. -/
def sseMarker : List Char := 'd' :: 'a' :: 't' :: 'a' :: ':' :: ' ' :: []

/-- Per-line decoding of `streamChat`: a line is relevant only when it
starts with the record marker; its remainder goes to the platform JSON
parse, abstracted as `parse` (with `none` for `JSON.parse` throwing, whose
`catch` arm skips the line). -/
def decodeLine (parse : List Char → Option ChatSSEEvent)
    (line : List Char) : Option ChatSSEEvent :=
  if sseMarker.isPrefixOf line then parse (line.drop 6) else none

/-- The decoder's loop-carried state: the residual-text buffer and the
events yielded so far. -/
structure DecState where
  buffer : List Char
  events : List ChatSSEEvent
deriving DecidableEq, Repr

/-- The decoder's initial state: empty buffer, nothing yielded. -/
def initDec : DecState := { buffer := [], events := [] }

/-- One iteration of the `while` loop of `streamChat` on a received chunk:
append to the buffer, split on newlines, retain the trailing piece as the
new buffer and decode every complete line, yielding the events of the
relevant well-formed lines in order. -/
def feedChunk (parse : List Char → Option ChatSSEEvent)
    (st : DecState) (chunk : List Char) : DecState :=
  let lines := splitNl (st.buffer ++ chunk)
  { buffer := (lines.getLast?).getD []
    events := st.events ++ lines.dropLast.filterMap (decodeLine parse) }

/-- All events yielded by `streamChat` for a given chunk sequence: the
final buffer is discarded when the transport signals `done`. -/
def streamChatEvents (parse : List Char → Option ChatSSEEvent)
    (chunks : List (List Char)) : List ChatSSEEvent :=
  (chunks.foldl (feedChunk parse) initDec).events

/-- `streamChat` including its initial-response check: a non-ok HTTP
status throws before any decoding, otherwise the decoded events are
produced.  The thrown error is the caller-visible failure signal. -/
def streamChatRun (ok : Bool) (status : Nat)
    (parse : List Char → Option ChatSSEEvent)
    (chunks : List (List Char)) : Except String (List ChatSSEEvent) :=
  if ok then Except.ok (streamChatEvents parse chunks)
  else Except.error ("Chat error: " ++ toString status)

/-- Join newline-terminated lines into the transport text. -/
def joinLines (lines : List (List Char)) : List Char :=
  (lines.map (fun l => l ++ ['\n'])).flatten

/-- A `ResultItem` of the results store.  `relevanceScore` is an integer
stand-in for the source's nullable number; no store operation inspects
it. -/
structure ResultItem where
  id : String
  source : String
  type : String
  title : String
  snippet : Option String
  date : Option String
  thumbnailUrl : Option String
  url : String
  relevanceScore : Option Int
  metadata : List (String × JsVal)
deriving DecidableEq, Repr

/-- The store's current batch: items plus the originating query. -/
structure ResultsState where
  items : List ResultItem
  query : String
deriving DecidableEq, Repr

/-- One entry record of the listener `Set`: insertion-ordered, with a
liveness flag so that deletion during iteration keeps the positions of the
remaining entries, exactly as JavaScript `Set` iteration does. -/
structure ListenerEntry where
  id : Nat
  live : Bool
deriving DecidableEq, Repr

/-- The ids the `Set` currently contains, in insertion order. -/
def liveIds (es : List ListenerEntry) : List Nat :=
  (es.filter (fun en => en.live)).map (fun en => en.id)

/-- `_listeners.add(fn)`: a no-op when the listener is already present,
otherwise a fresh entry appended at the end. -/
def addListener (es : List ListenerEntry) (i : Nat) : List ListenerEntry :=
  if i ∈ liveIds es then es else es ++ [{ id := i, live := true }]

/-- `_listeners.delete(fn)`: mark the live entry with the given id dead,
keeping its position as a tombstone. -/
def removeListener : List ListenerEntry → Nat → List ListenerEntry
  | [], _ => []
  | en :: rest, i =>
    if en.live ∧ en.id = i then { en with live := false } :: rest
    else en :: removeListener rest i

/-- What a subscriber callback may do to the store while being notified:
subscribe or unsubscribe listeners.  (Re-entrant `publish` is the spec's
documented unguarded hazard and outside the modelled callback actions.) -/
inductive SubAction where
  | sub (i : Nat)
  | unsub (i : Nat)

/-- Apply one callback action to the listener set. -/
def applySubAction (es : List ListenerEntry) : SubAction → List ListenerEntry
  | .sub i => addListener es i
  | .unsub i => removeListener es i

/-- Run a callback's actions in order. -/
def applySubActions (acts : List SubAction) (es : List ListenerEntry) :
    List ListenerEntry :=
  acts.foldl applySubAction es

/-- `_listeners.forEach(fn => fn())` with callbacks `env`, walking entry
records from position `i`: a live entry is invoked (its actions applied to
the set before the walk continues), a dead entry is skipped, and entries
appended during the walk are visited.  `fuel` bounds the walk; any fuel at
least the number of entries ever reachable suffices and the theorems
discharge it explicitly. -/
def notifyAux (env : Nat → List SubAction) :
    Nat → Nat → List ListenerEntry → List Nat × List ListenerEntry
  | 0, _, es => ([], es)
  | fuel + 1, i, es =>
    match es.get? i with
    | none => ([], es)
    | some en =>
      if en.live then
        let es' := applySubActions (env en.id) es
        let (fired, esF) := notifyAux env fuel (i + 1) es'
        (en.id :: fired, esF)
      else notifyAux env fuel (i + 1) es

/-- The whole store: the current batch and the listener set. -/
structure StoreState where
  state : ResultsState
  entries : List ListenerEntry
deriving Repr

/-- The store at module load: empty items, empty query, no listeners. -/
def initStore : StoreState :=
  { state := { items := [], query := "" }, entries := [] }

/-- `setResults(items, query)`: replace the batch, then `_notify()`.
Returns the new store and the ordered list of listener ids invoked. -/
def setResults (env : Nat → List SubAction) (fuel : Nat)
    (st : StoreState) (items : List ResultItem) (query : String) :
    StoreState × List Nat :=
  let st' : StoreState := { st with state := { items := items, query := query } }
  let (fired, es) := notifyAux env fuel 0 st'.entries
  ({ st' with entries := es }, fired)

/-- `getResults()`: the current batch. -/
def getResults (st : StoreState) : ResultsState := st.state

/-- The subscription performed by `useResults`' effect: add the listener;
nothing is invoked and the batch is untouched. -/
def subscribeStore (st : StoreState) (i : Nat) : StoreState :=
  { st with entries := addListener st.entries i }

/-- The nullish-coalescing probe is the first-some search over the field
list. -/
theorem probeNullish_eq_findSome (o : JsRecord) (fs : List String) :
    probeNullish o fs =
      fs.findSome? (fun f => (lookupField o f).bind
        (fun v => if v = JsVal.null then none else some v)) := by
  induction fs with
  | nil => rfl
  | cons f fs ih =>
    simp only [probeNullish, List.findSome?_cons]
    cases lookupField o f with
    | none => simpa using ih
    | some v =>
      by_cases hv : v = JsVal.null
      · simp [hv, ih]
      · simp [hv]

/-- C5 — counterexample.  The claim says the title is the first non-empty
value among the candidate fields; on a record whose `title` field is
present but empty, the code's nullish-coalescing chain stops at `title`
and falls back to the literal `"Result"` instead of continuing to the
non-empty `subject`. -/
theorem itemTitle_probe_counterexample :
    itemTitle [("title", JsVal.str ""), ("subject", JsVal.str "Y")] = "Result"
      ∧ itemTitleClaimed [("title", JsVal.str ""), ("subject", JsVal.str "Y")] = "Y"
      ∧ itemTitle [("title", JsVal.str ""), ("subject", JsVal.str "Y")]
          ≠ itemTitleClaimed [("title", JsVal.str ""), ("subject", JsVal.str "Y")] := by
  refine ⟨rfl, rfl, ?_⟩
  decide

/-- C5 — amended.  The title probe stops at the first present, non-null
candidate field in the fixed priority order; a falsy stopping value (such
as the empty string) still yields the literal `"Result"`, a truthy one is
stringified and truncated to 120 characters, and when no candidate field
is present non-null the title is `"Result"`.  The claim's three examples
hold as stated. -/
theorem itemTitle_amended :
    (∀ o : JsRecord, itemTitle o = itemTitleAmended o)
      ∧ itemTitle [("title", JsVal.str "X"), ("subject", JsVal.str "Y")] = "X"
      ∧ itemTitle [("subject", JsVal.str "Y"), ("name", JsVal.str "Z")] = "Y"
      ∧ itemTitle ([] : JsRecord) = "Result" := by
  refine ⟨?_, rfl, rfl, rfl⟩
  intro o
  unfold itemTitle itemTitleAmended
  rw [probeNullish_eq_findSome]

/-- C6 — the secondary label: the first present non-null date-like field,
stringified, is (when non-empty) formatted by the best-effort formatter
with fallback to the raw string on failure, then one truthy
status/category field is appended; absent parts are omitted, an entirely
empty label is `none`, and the function is total, never failing on
missing or mistyped fields.  The concrete cases exercise the raw-string
fallback, the two-part join and the all-absent record. -/
theorem itemMeta_spec :
    (∀ (fmt : String → Option String) (o : JsRecord),
        itemMeta fmt o = itemMetaSpec fmt o)
      ∧ itemMeta (fun _ => none) [("date", JsVal.str "2020-13-45")]
          = some "2020-13-45"
      ∧ itemMeta (fun _ => some "Jan 1, 2020")
          [("meeting_date", JsVal.str "2020-01-01"), ("status", JsVal.str "Adopted")]
          = some "Jan 1, 2020 · Adopted"
      ∧ itemMeta (fun s => some s) ([] : JsRecord) = none := by
  refine ⟨?_, rfl, rfl, rfl⟩
  intro fmt o
  unfold itemMeta itemMetaSpec
  cases hd : probeNullish o dateFields with
  | none =>
    cases hl : probeNullish o labelFields with
    | none => simp
    | some v =>
      by_cases hv : jsFalsy v
      · simp [hv]
      · simp [hv, joinDot]
  | some d =>
    by_cases hs : jsString d = ""
    · cases hl : probeNullish o labelFields with
      | none => simp [hs]
      | some v =>
        by_cases hv : jsFalsy v
        · simp [hs, hv]
        · simp [hs, hv, joinDot]
    · cases hf : fmt (jsString d) with
      | none =>
        cases hl : probeNullish o labelFields with
        | none => simp [hs, hf, joinDot]
        | some v =>
          by_cases hv : jsFalsy v
          · simp [hs, hf, hv, joinDot]
          · simp [hs, hf, hv, joinDot]
      | some fd =>
        cases hl : probeNullish o labelFields with
        | none => simp [hs, hf, joinDot]
        | some v =>
          by_cases hv : jsFalsy v
          · simp [hs, hf, hv, joinDot]
          · simp [hs, hf, hv, joinDot]

theorem setResultAt_cons_succ (tc : ToolCallRecord) (l : List ToolCallRecord)
    (i : Nat) (r : ToolResultVal) :
    setResultAt (tc :: l) (i + 1) r = tc :: setResultAt l i r := by
  unfold setResultAt
  rw [List.get?_cons_succ]
  cases h : l.get? i with
  | none => rfl
  | some a => exact List.set_cons_succ tc l i _

/-- The `findIndex`-then-assign step of the code equals first-match
overwrite by structural recursion. -/
theorem findIdx_set_eq_updateFirst (nm : String) (r : ToolResultVal) :
    ∀ l : List ToolCallRecord,
      (match l.findIdx? (fun tc => tc.name = nm) with
       | some i => setResultAt l i r
       | none => l) = updateFirstByName nm r l := by
  intro l
  induction l with
  | nil => rfl
  | cons tc rest ih =>
    by_cases h : tc.name = nm
    · simp [List.findIdx?_cons, h, updateFirstByName, setResultAt]
    · simp only [List.findIdx?_cons, h, decide_False, Bool.false_eq_true, if_false,
        List.findIdx?_succ]
      cases hf : rest.findIdx? (fun tc => tc.name = nm) with
      | none =>
        have ih' : rest = updateFirstByName nm r rest := by rw [hf] at ih; exact ih
        simp [updateFirstByName, h, ← ih']
      | some i =>
        have ih' : setResultAt rest i r = updateFirstByName nm r rest := by
          rw [hf] at ih; exact ih
        simp [updateFirstByName, h, setResultAt_cons_succ, ← ih']

theorem updateFirst_no_match (nm : String) (r : ToolResultVal) :
    ∀ l : List ToolCallRecord, (∀ tc ∈ l, tc.name ≠ nm) →
      updateFirstByName nm r l = l := by
  intro l
  induction l with
  | nil => intro _; rfl
  | cons tc rest ih =>
    intro h
    have h1 : tc.name ≠ nm := h tc (List.mem_cons_self tc rest)
    have h2 : ∀ x ∈ rest, x.name ≠ nm := fun x hx => h x (List.mem_cons_of_mem tc hx)
    simp [updateFirstByName, h1, ih h2]

theorem updateFirst_result_isSome (nm : String) (r : ToolResultVal) :
    ∀ l : List ToolCallRecord, (∀ tc ∈ l, tc.result ≠ none) →
      ∀ tc ∈ updateFirstByName nm r l, tc.result ≠ none := by
  intro l
  induction l with
  | nil => intro _ tc htc; simp [updateFirstByName] at htc
  | cons a rest ih =>
    intro h tc htc
    by_cases ha : a.name = nm
    · simp [updateFirstByName, ha] at htc
      rcases htc with h1 | h1
      · subst h1; simp
      · exact h tc (List.mem_cons_of_mem a h1)
    · simp [updateFirstByName, ha] at htc
      rcases htc with h1 | h1
      · subst h1; exact h tc (List.mem_cons_self tc rest)
      · exact ih (fun x hx => h x (List.mem_cons_of_mem a hx)) tc h1

/-- Every event step preserves the invariant that each active tool call
carries a result value. -/
theorem step_preserves_result_some (s : TurnState) (e : ChatSSEEvent)
    (h : ∀ tc ∈ s.activeToolCalls, tc.result ≠ none) :
    ∀ tc ∈ (sendMessageStep s e).activeToolCalls, tc.result ≠ none := by
  cases e with
  | conversationAssigned id =>
    cases id with
    | none => exact h
    | some n =>
      by_cases hn : n ≠ 0
      · simpa [sendMessageStep, hn] using h
      · simpa [sendMessageStep, hn] using h
  | token c => exact h
  | toolCall nmo ao =>
    intro tc htc
    simp [sendMessageStep] at htc
    rcases htc with h1 | h1
    · exact h tc h1
    · subst h1; simp
  | toolResult nmo ro =>
    cases nmo with
    | none => cases ro <;> exact h
    | some nm =>
      cases ro with
      | none => exact h
      | some r =>
        intro tc htc
        simp only [sendMessageStep] at htc
        rw [findIdx_set_eq_updateFirst nm r s.activeToolCalls] at htc
        exact updateFirst_result_isSome nm r s.activeToolCalls h tc htc
  | done => exact h
  | errorEvent c => exact h
  | other => exact h

theorem foldl_preserves_result_some (evs : List ChatSSEEvent) :
    ∀ s : TurnState, (∀ tc ∈ s.activeToolCalls, tc.result ≠ none) →
      ∀ tc ∈ (evs.foldl sendMessageStep s).activeToolCalls, tc.result ≠ none := by
  induction evs with
  | nil => intro s h; exact h
  | cons e rest ih =>
    intro s h
    exact ih (sendMessageStep s e) (step_preserves_result_some s e h)

/-- C1 — counterexample.  Two tool calls named `a` followed by one
success-true tool result: the claim demands that the result resolve the
most recently appended unresolved invocation (the second one, as the
claim-side model shows), but the code's `findIndex` lands it on the first
invocation and leaves the second with its creation placeholder. -/
theorem toolResult_correlation_counterexample :
    ((runEvents
        [ChatSSEEvent.toolCall (some "a") (some []),
         ChatSSEEvent.toolCall (some "a") (some []),
         ChatSSEEvent.toolResult (some "a") (some ⟨true, none, none⟩)]).activeToolCalls.map
          ToolCallRecord.result
        = [some ⟨true, none, none⟩, some ⟨false, none, none⟩])
      ∧ (([ChatSSEEvent.toolCall (some "a") (some []),
           ChatSSEEvent.toolCall (some "a") (some []),
           ChatSSEEvent.toolResult (some "a") (some ⟨true, none, none⟩)].foldl
            claimedInvocationStep []).map ToolCallRecord.result
          = [none, some ⟨true, none, none⟩])
      ∧ ([some (⟨true, none, none⟩ : ToolResultVal), some ⟨false, none, none⟩]
          ≠ [none, some (⟨true, none, none⟩ : ToolResultVal)]) := by
  decide

/-- C1 — amended.  Processing `ToolResult(name, result)` overwrites the
result of the earliest-appended invocation whose name equals the event's
name, regardless of its resolution state; when no invocation with that
name exists, or the event carries no name or no result payload, the event
is dropped silently and the invocation list is unchanged; no exception is
raised on any path. -/
theorem toolResult_correlation_amended :
    ∀ (s : TurnState) (nm : String) (r : ToolResultVal),
      ((sendMessageStep s (ChatSSEEvent.toolResult (some nm) (some r))).activeToolCalls
          = updateFirstByName nm r s.activeToolCalls)
      ∧ ((∀ tc ∈ s.activeToolCalls, tc.name ≠ nm) →
          (sendMessageStep s (ChatSSEEvent.toolResult (some nm) (some r))).activeToolCalls
            = s.activeToolCalls)
      ∧ (∀ nmo : Option String,
          (sendMessageStep s (ChatSSEEvent.toolResult nmo none)).activeToolCalls
            = s.activeToolCalls)
      ∧ (∀ ro : Option ToolResultVal,
          (sendMessageStep s (ChatSSEEvent.toolResult none ro)).activeToolCalls
            = s.activeToolCalls) := by
  intro s nm r
  have hmain :
      (sendMessageStep s (ChatSSEEvent.toolResult (some nm) (some r))).activeToolCalls
        = updateFirstByName nm r s.activeToolCalls := by
    simp only [sendMessageStep]
    exact findIdx_set_eq_updateFirst nm r s.activeToolCalls
  refine ⟨hmain, ?_, ?_, ?_⟩
  · intro hnone
    rw [hmain]
    exact updateFirst_no_match nm r s.activeToolCalls hnone
  · intro nmo; cases nmo <;> rfl
  · intro ro; cases ro <;> rfl

theorem toolResult_correlation_amended_witness :
    (sendMessageStep initTurn
        (ChatSSEEvent.toolResult (some "x") (some ⟨true, none, none⟩))).activeToolCalls
      = initTurn.activeToolCalls :=
  (toolResult_correlation_amended initTurn "x" ⟨true, none, none⟩).2.1 (by decide)

/-- C9 — counterexample.  A single `ToolCall` with no `ToolResult` ever
processed: the created invocation is still unresolved, yet its result
field is present from creation, initialised to the success-false
placeholder — the claim's "absent until resolved" fails. -/
theorem toolInvocation_result_counterexample :
    (runEvents [ChatSSEEvent.toolCall (some "search_meetings") (some [])]).activeToolCalls
        = [⟨"search_meetings", [], some ⟨false, none, none⟩⟩]
      ∧ (runEvents
          [ChatSSEEvent.toolCall (some "search_meetings") (some [])]).activeToolCalls.all
            (fun tc => tc.result.isSome) = true := by
  decide

/-- C9 — amended.  Every invocation created by a `ToolCall` event carries
a result from the moment of creation, initialised to the success-false
placeholder; consequently in every reachable turn state every active
invocation carries a result value, and resolution by a matching
`ToolResult` merely overwrites it. -/
theorem toolInvocation_result_amended :
    (∀ (s : TurnState) (nmo : Option String) (ao : Option Args),
        (sendMessageStep s (ChatSSEEvent.toolCall nmo ao)).activeToolCalls
          = s.activeToolCalls ++ [⟨nmo.getD "", ao.getD [], some ⟨false, none, none⟩⟩])
      ∧ ∀ evs : List ChatSSEEvent, ∀ tc ∈ (runEvents evs).activeToolCalls,
          tc.result ≠ none := by
  constructor
  · intro s nmo ao; rfl
  · intro evs
    exact foldl_preserves_result_some evs initTurn (by simp [initTurn])

theorem toolInvocation_result_amended_witness :
    (⟨"a", [], some ⟨false, none, none⟩⟩ : ToolCallRecord).result ≠ none :=
  toolInvocation_result_amended.2 [ChatSSEEvent.toolCall (some "a") (some [])]
    ⟨"a", [], some ⟨false, none, none⟩⟩ (by decide)

/-- While no `done` event has been processed, the trailing assistant
message mirrors the loop state: its content is the accumulated text, its
tool-call list view is the active list, and it is still streaming. -/
theorem step_preserves_turn_inv (s : TurnState) (e : ChatSSEEvent)
    (hne : e ≠ ChatSSEEvent.done)
    (h1 : s.message.content = s.fullContent)
    (h2 : s.message.toolCalls.getD [] = s.activeToolCalls)
    (h3 : s.message.isStreaming = true) :
    (sendMessageStep s e).message.content = (sendMessageStep s e).fullContent
      ∧ (sendMessageStep s e).message.toolCalls.getD []
          = (sendMessageStep s e).activeToolCalls
      ∧ (sendMessageStep s e).message.isStreaming = true := by
  cases e with
  | conversationAssigned id =>
    cases id with
    | none => exact ⟨h1, h2, h3⟩
    | some n =>
      by_cases hn : n ≠ 0
      · simp only [sendMessageStep]
        rw [if_pos hn]
        exact ⟨h1, h2, h3⟩
      · simp only [sendMessageStep]
        rw [if_neg hn]
        exact ⟨h1, h2, h3⟩
  | token c => simp [sendMessageStep, h2]
  | toolCall nmo ao => simp [sendMessageStep, h1, h3]
  | toolResult nmo ro => simp [sendMessageStep, h1, h3]
  | done => exact absurd rfl hne
  | errorEvent c => exact ⟨h1, h2, h3⟩
  | other => exact ⟨h1, h2, h3⟩

theorem foldl_preserves_turn_inv (evs : List ChatSSEEvent) :
    ChatSSEEvent.done ∉ evs →
    ∀ s : TurnState,
      s.message.content = s.fullContent →
      s.message.toolCalls.getD [] = s.activeToolCalls →
      s.message.isStreaming = true →
      ((evs.foldl sendMessageStep s).message.content
          = (evs.foldl sendMessageStep s).fullContent
        ∧ (evs.foldl sendMessageStep s).message.toolCalls.getD []
            = (evs.foldl sendMessageStep s).activeToolCalls
        ∧ (evs.foldl sendMessageStep s).message.isStreaming = true) := by
  induction evs with
  | nil => intro _ s h1 h2 h3; exact ⟨h1, h2, h3⟩
  | cons e rest ih =>
    intro hnd s h1 h2 h3
    have hne : e ≠ ChatSSEEvent.done := fun h => hnd (h ▸ List.mem_cons_self e rest)
    have hrest : ChatSSEEvent.done ∉ rest := fun h => hnd (List.mem_cons_of_mem e h)
    obtain ⟨g1, g2, g3⟩ := step_preserves_turn_inv s e hne h1 h2 h3
    exact ih hrest (sendMessageStep s e) g1 g2 g3

/-- C2 — the code evaluated at the claim's own scenario and in general:
the claim says stream exhaustion with no `done` finalizes a turn
behaviorally identical to the explicit `done` path with no exception,
and the `finally` block's own comment documents that intent, but the
commit reads `fullContent`, which is let-scoped to the `try` block and
not visible in `finally`.  After a lone `ToolCall` the in-loop state is
right (exactly one invocation with that name, placeholder result,
streaming flag still set), the explicit `done` path finalizes normally,
yet the stream-exhaustion commit fails with the out-of-scope reference —
and it does so for every event sequence containing no `done`, because
the guard `last.isStreaming` is true exactly then. -/
theorem streamEnd_finalize_scope_bug :
    (runTurn [ChatSSEEvent.toolCall (some "search_meetings") (some [])]
        = Except.error "ReferenceError: fullContent is not defined")
      ∧ (runTurn [ChatSSEEvent.toolCall (some "search_meetings") (some []),
            ChatSSEEvent.done]
          = Except.ok
              (runEvents [ChatSSEEvent.toolCall (some "search_meetings") (some []),
                ChatSSEEvent.done]))
      ∧ ((runEvents [ChatSSEEvent.toolCall (some "search_meetings") (some []),
            ChatSSEEvent.done]).message.toolCalls
          = some [⟨"search_meetings", [], some ⟨false, none, none⟩⟩])
      ∧ ((runEvents [ChatSSEEvent.toolCall (some "search_meetings") (some []),
            ChatSSEEvent.done]).message.isStreaming = false)
      ∧ ((runEvents
            [ChatSSEEvent.toolCall (some "search_meetings") (some [])]).activeToolCalls
          = [⟨"search_meetings", [], some ⟨false, none, none⟩⟩])
      ∧ (∀ evs : List ChatSSEEvent, ChatSSEEvent.done ∉ evs →
          runTurn evs = Except.error "ReferenceError: fullContent is not defined") := by
  refine ⟨rfl, rfl, rfl, rfl, rfl, ?_⟩
  intro evs hnd
  obtain ⟨-, -, h3⟩ := foldl_preserves_turn_inv evs hnd initTurn rfl rfl rfl
  have h3' : (runEvents evs).message.isStreaming = true := h3
  simp [runTurn, finalizeStream, h3']

theorem streamEnd_finalize_scope_bug_witness :
    runTurn [ChatSSEEvent.token (some "Hi")]
      = Except.error "ReferenceError: fullContent is not defined" :=
  streamEnd_finalize_scope_bug.2.2.2.2.2 [ChatSSEEvent.token (some "Hi")] (by decide)

theorem splitNl_ne_nil (l : List Char) : splitNl l ≠ [] := by
  cases l with
  | nil => simp [splitNl]
  | cons c cs =>
    simp only [splitNl]
    cases h : splitNl cs with
    | nil => simp
    | cons x xs =>
      by_cases hc : c = '\n' <;> simp [hc]

theorem splitNl_cons (c : Char) (l : List Char) :
    splitNl (c :: l) = if c = '\n' then [] :: splitNl l else consHead [c] (splitNl l) := by
  simp only [splitNl]
  cases h : splitNl l with
  | nil => exact absurd h (splitNl_ne_nil l)
  | cons x xs =>
    by_cases hc : c = '\n' <;> simp [hc, consHead]

theorem consHead_ne_nil (p : List Char) (ls : List (List Char)) :
    consHead p ls ≠ [] := by
  cases ls <;> simp [consHead]

theorem consHead_consHead (p q : List Char) (ls : List (List Char)) :
    consHead p (consHead q ls) = consHead (p ++ q) ls := by
  cases ls <;> simp [consHead]

theorem mem_splitNl_no_nl (l : List Char) :
    ∀ piece ∈ splitNl l, '\n' ∉ piece := by
  induction l with
  | nil => intro piece hp; simp [splitNl] at hp; simp [hp]
  | cons c cs ih =>
    intro piece hp
    rw [splitNl_cons] at hp
    by_cases hc : c = '\n'
    · simp [hc] at hp
      rcases hp with hp | hp
      · simp [hp]
      · exact ih piece hp
    · simp [hc] at hp
      cases h : splitNl cs with
      | nil => exact absurd h (splitNl_ne_nil cs)
      | cons x xs =>
        rw [h] at hp
        simp [consHead] at hp
        rcases hp with hp | hp
        · subst hp
          intro hmem
          simp at hmem
          rcases hmem with hmem | hmem
          · exact hc hmem.symm
          · exact ih x (h ▸ List.mem_cons_self x xs) hmem
        · exact ih piece (h ▸ List.mem_cons_of_mem x hp)

theorem splitNl_of_no_nl (l : List Char) (h : '\n' ∉ l) : splitNl l = [l] := by
  induction l with
  | nil => rfl
  | cons c cs ih =>
    have hc : c ≠ '\n' := fun hh => h (hh ▸ List.mem_cons_self c cs)
    have hcs : '\n' ∉ cs := fun hh => h (List.mem_cons_of_mem c hh)
    rw [splitNl_cons, if_neg hc, ih hcs]
    rfl

theorem lastPiece_no_nl (l : List Char) : '\n' ∉ (splitNl l).getLast?.getD [] := by
  have hne := splitNl_ne_nil l
  rw [List.getLast?_eq_getLast (splitNl l) hne]
  exact mem_splitNl_no_nl l _ (List.getLast_mem hne)

theorem splitNl_append (a b : List Char) :
    splitNl (a ++ b)
      = (splitNl a).dropLast
          ++ consHead ((splitNl a).getLast?.getD []) (splitNl b) := by
  induction a with
  | nil =>
    simp only [List.nil_append, splitNl, List.dropLast_single, Option.getD_some,
      List.getLast?_singleton]
    cases h : splitNl b with
    | nil => exact absurd h (splitNl_ne_nil b)
    | cons x xs => simp [consHead]
  | cons c a ih =>
    rw [List.cons_append, splitNl_cons, splitNl_cons]
    by_cases hc : c = '\n'
    · rw [if_pos hc, if_pos hc, ih]
      cases h : splitNl a with
      | nil => exact absurd h (splitNl_ne_nil a)
      | cons x xs => simp [List.dropLast, List.getLast?]
    · rw [if_neg hc, if_neg hc, ih]
      cases h : splitNl a with
      | nil => exact absurd h (splitNl_ne_nil a)
      | cons x xs =>
        cases xs with
        | nil =>
          cases hb : splitNl b with
          | nil => exact absurd hb (splitNl_ne_nil b)
          | cons y ys => simp [consHead]
        | cons y ys =>
          simp [consHead, List.dropLast, List.getLast?]

theorem feedChunk_append (parse : List Char → Option ChatSSEEvent)
    (st : DecState) (a b : List Char) :
    feedChunk parse (feedChunk parse st a) b = feedChunk parse st (a ++ b) := by
  simp only [feedChunk]
  have hassoc : st.buffer ++ (a ++ b) = (st.buffer ++ a) ++ b := by
    rw [List.append_assoc]
  rw [hassoc, splitNl_append (st.buffer ++ a) b]
  have hP := lastPiece_no_nl (st.buffer ++ a)
  rw [splitNl_append ((splitNl (st.buffer ++ a)).getLast?.getD []) b,
    splitNl_of_no_nl _ hP]
  simp only [List.dropLast_single, List.nil_append, List.getLast?_singleton,
    Option.getD_some]
  have hch := consHead_ne_nil ((splitNl (st.buffer ++ a)).getLast?.getD []) (splitNl b)
  rw [List.getLast?_append_of_ne_nil _ hch,
    List.dropLast_append_of_ne_nil _ hch, List.filterMap_append, List.append_assoc]

theorem feedChunk_buffer_no_nl (parse : List Char → Option ChatSSEEvent)
    (st : DecState) (c : List Char) :
    '\n' ∉ (feedChunk parse st c).buffer := by
  simp only [feedChunk]
  exact lastPiece_no_nl (st.buffer ++ c)

theorem feedChunk_nil (parse : List Char → Option ChatSSEEvent) (st : DecState)
    (h : '\n' ∉ st.buffer) : feedChunk parse st [] = st := by
  simp only [feedChunk, List.append_nil, splitNl_of_no_nl st.buffer h]
  cases st
  simp

theorem foldl_feedChunk (parse : List Char → Option ChatSSEEvent)
    (chunks : List (List Char)) :
    ∀ st : DecState, '\n' ∉ st.buffer →
      chunks.foldl (feedChunk parse) st = feedChunk parse st chunks.flatten := by
  induction chunks with
  | nil =>
    intro st h
    simp only [List.foldl_nil, List.flatten_nil]
    exact (feedChunk_nil parse st h).symm
  | cons c rest ih =>
    intro st h
    rw [List.foldl_cons, ih (feedChunk parse st c) (feedChunk_buffer_no_nl parse st c),
      feedChunk_append, List.flatten_cons]

theorem streamChatEvents_eq_unsplit (parse : List Char → Option ChatSSEEvent)
    (chunks : List (List Char)) :
    streamChatEvents parse chunks = streamChatEvents parse [chunks.flatten] := by
  unfold streamChatEvents
  rw [foldl_feedChunk parse chunks initDec (by simp [initDec])]
  rfl

theorem splitNl_joinLines (lines : List (List Char)) :
    (∀ l ∈ lines, '\n' ∉ l) → ∀ t : List Char,
      splitNl (joinLines lines ++ t) = lines ++ splitNl t := by
  induction lines with
  | nil => intro _ t; rfl
  | cons l ls ih =>
    intro h t
    have hl : '\n' ∉ l := h l (List.mem_cons_self l ls)
    have hls : ∀ x ∈ ls, '\n' ∉ x := fun x hx => h x (List.mem_cons_of_mem l hx)
    have hJ : joinLines (l :: ls) ++ t = l ++ ('\n' :: (joinLines ls ++ t)) := by
      simp [joinLines, List.append_assoc]
    rw [hJ]
    rw [show ('\n' :: (joinLines ls ++ t)) = ['\n'] ++ (joinLines ls ++ t) from rfl]
    rw [← List.append_assoc, splitNl_append (l ++ ['\n']) (joinLines ls ++ t), ih hls t]
    have hsplit : splitNl (l ++ ['\n']) = [l, []] := by
      rw [splitNl_append l ['\n'], splitNl_of_no_nl l hl]
      simp [consHead, splitNl]
    rw [hsplit]
    simp [consHead]
    cases hlt : ls ++ splitNl t with
    | nil => exact absurd (List.append_eq_nil.mp hlt).2 (splitNl_ne_nil t)
    | cons x xs => simp [consHead]

theorem length_filterMap_of_all_isSome {α β : Type} (f : α → Option β) :
    ∀ l : List α, (∀ x ∈ l, (f x).isSome) → (l.filterMap f).length = l.length := by
  intro l
  induction l with
  | nil => intro _; rfl
  | cons a rest ih =>
    intro h
    have ha := h a (List.mem_cons_self a rest)
    cases hf : f a with
    | none => rw [hf] at ha; simp at ha
    | some b =>
      rw [List.filterMap_cons, hf]
      simp only [List.length_cons]
      rw [ih (fun x hx => h x (List.mem_cons_of_mem a hx))]

theorem streamChatEvents_joinLines (parse : List Char → Option ChatSSEEvent)
    (lines : List (List Char)) (hnl : ∀ l ∈ lines, '\n' ∉ l) :
    streamChatEvents parse [joinLines lines] = lines.filterMap (decodeLine parse) := by
  unfold streamChatEvents
  simp only [List.foldl_cons, List.foldl_nil]
  simp only [feedChunk, initDec, List.nil_append]
  have hs : splitNl (joinLines lines) = lines ++ [[]] := by
    have h := splitNl_joinLines lines hnl []
    simpa using h
  rw [hs, List.dropLast_concat]

/-- C3 — chunk-boundary invariance of the stream decoder: for any valid
sequence of newline-terminated event lines and any partition of its text
into chunks at arbitrary offsets (including mid-line), the decoder yields
the same events, in the same order, as decoding the unsplit input — the
trailing incomplete line riding in the single residual buffer — and when
every line is relevant and well-formed it yields exactly one event per
line. -/
theorem decoder_chunking :
    ∀ (parse : List Char → Option ChatSSEEvent) (chunks lines : List (List Char)),
      chunks.flatten = joinLines lines →
      (∀ l ∈ lines, '\n' ∉ l) →
      (streamChatEvents parse chunks = streamChatEvents parse [chunks.flatten]
        ∧ streamChatEvents parse chunks = lines.filterMap (decodeLine parse)
        ∧ ((∀ l ∈ lines, (decodeLine parse l).isSome) →
            (streamChatEvents parse chunks).length = lines.length)) := by
  intro parse chunks lines hjoin hnl
  have h1 := streamChatEvents_eq_unsplit parse chunks
  have h2 : streamChatEvents parse chunks = lines.filterMap (decodeLine parse) := by
    rw [h1, hjoin]
    exact streamChatEvents_joinLines parse lines hnl
  refine ⟨h1, h2, fun hv => ?_⟩
  rw [h2]
  exact length_filterMap_of_all_isSome _ lines hv

theorem decoder_chunking_witness :
    streamChatEvents
        (fun s => if s = ['t'] then some (ChatSSEEvent.token (some "T")) else none)
        [['d', 'a'], ['t', 'a', ':', ' ', 't', '\n']]
      = List.filterMap
          (decodeLine
            (fun s => if s = ['t'] then some (ChatSSEEvent.token (some "T")) else none))
          [['d', 'a', 't', 'a', ':', ' ', 't']] :=
  (decoder_chunking
      (fun s => if s = ['t'] then some (ChatSSEEvent.token (some "T")) else none)
      [['d', 'a'], ['t', 'a', ':', ' ', 't', '\n']]
      [['d', 'a', 't', 'a', ':', ' ', 't']]
      (by decide) (by decide)).2.1

/-- C10 — a final line not terminated by a newline stays in the residual
buffer and is never decoded or yielded, even when it is a complete,
well-formed record-marker line: at stream end the loop breaks and the
buffer is discarded, so the events are exactly those of the
newline-terminated prefix. -/
theorem trailing_line_discarded :
    ∀ (parse : List Char → Option ChatSSEEvent) (lines : List (List Char))
      (trailing : List Char),
      (∀ l ∈ lines, '\n' ∉ l) → '\n' ∉ trailing →
      (streamChatEvents parse [joinLines lines ++ trailing]
          = lines.filterMap (decodeLine parse)
        ∧ (List.foldl (feedChunk parse) initDec [joinLines lines ++ trailing]).buffer
            = trailing) := by
  intro parse lines trailing hnl htr
  have hs : splitNl (joinLines lines ++ trailing) = lines ++ [trailing] := by
    rw [splitNl_joinLines lines hnl trailing, splitNl_of_no_nl trailing htr]
  constructor
  · unfold streamChatEvents
    simp only [List.foldl_cons, List.foldl_nil]
    simp only [feedChunk, initDec, List.nil_append]
    rw [hs, List.dropLast_concat]
  · simp only [List.foldl_cons, List.foldl_nil]
    simp only [feedChunk, initDec, List.nil_append]
    rw [hs, List.getLast?_concat]
    rfl

theorem trailing_line_discarded_witness :
    streamChatEvents
        (fun s => if s = ['t'] then some (ChatSSEEvent.token (some "T")) else none)
        [joinLines [] ++ ['d', 'a', 't', 'a', ':', ' ', 't']]
      = List.filterMap
          (decodeLine
            (fun s => if s = ['t'] then some (ChatSSEEvent.token (some "T")) else none))
          [] :=
  (trailing_line_discarded
      (fun s => if s = ['t'] then some (ChatSSEEvent.token (some "T")) else none)
      [] ['d', 'a', 't', 'a', ':', ' ', 't'] (by decide) (by decide)).1

/-- C7 — error-handling of the decode pipeline: a malformed line (no
record marker, or a payload the JSON parse rejects) is dropped without
terminating decoding, the well-formed lines before and after it decoding
in order exactly as if the malformed line were absent; decoding is a
total function of the content (it cannot fail for content-shape reasons),
a non-success initial HTTP response is the explicit caller-visible error
signal, and an unknown-`type` frame yielded by the decoder is ignored by
the turn assembler's switch, leaving the assembled turn unchanged. -/
theorem malformed_frame_resilience :
    ∀ (parse : List Char → Option ChatSSEEvent) (pre post : List (List Char))
      (bad : List Char) (status : Nat),
      (∀ l ∈ pre, '\n' ∉ l) → (∀ l ∈ post, '\n' ∉ l) → '\n' ∉ bad →
      decodeLine parse bad = none →
      ((streamChatEvents parse [joinLines (pre ++ bad :: post)]
          = streamChatEvents parse [joinLines (pre ++ post)])
        ∧ streamChatEvents parse [joinLines (pre ++ bad :: post)]
            = pre.filterMap (decodeLine parse) ++ post.filterMap (decodeLine parse)
        ∧ streamChatRun false status parse []
            = Except.error ("Chat error: " ++ toString status)
        ∧ (∀ chunks, streamChatRun true status parse chunks
            = Except.ok (streamChatEvents parse chunks))
        ∧ (∀ evs1 evs2 : List ChatSSEEvent,
            runTurn (evs1 ++ ChatSSEEvent.other :: evs2) = runTurn (evs1 ++ evs2))) := by
  intro parse pre post bad status hpre hpost hbad hdec
  have hnl1 : ∀ l ∈ pre ++ bad :: post, '\n' ∉ l := by
    intro l hl
    rcases List.mem_append.mp hl with h | h
    · exact hpre l h
    · rcases List.mem_cons.mp h with h | h
      · exact h ▸ hbad
      · exact hpost l h
  have hnl2 : ∀ l ∈ pre ++ post, '\n' ∉ l := by
    intro l hl
    rcases List.mem_append.mp hl with h | h
    · exact hpre l h
    · exact hpost l h
  have e1 := streamChatEvents_joinLines parse (pre ++ bad :: post) hnl1
  have e2 := streamChatEvents_joinLines parse (pre ++ post) hnl2
  have hfm : (pre ++ bad :: post).filterMap (decodeLine parse)
      = pre.filterMap (decodeLine parse) ++ post.filterMap (decodeLine parse) := by
    rw [List.filterMap_append, List.filterMap_cons, hdec]
  refine ⟨?_, ?_, rfl, fun chunks => rfl, ?_⟩
  · rw [e1, e2, hfm, List.filterMap_append]
  · rw [e1, hfm]
  · intro evs1 evs2
    unfold runTurn runEvents
    rw [List.foldl_append, List.foldl_append, List.foldl_cons]
    rfl

theorem malformed_frame_resilience_witness :
    streamChatEvents
        (fun s => if s = ['t'] then some (ChatSSEEvent.token (some "T")) else none)
        [joinLines ([['d', 'a', 't', 'a', ':', ' ', 't']] ++ ['x'] :: [])]
      = List.filterMap
            (decodeLine
              (fun s => if s = ['t'] then some (ChatSSEEvent.token (some "T")) else none))
            [['d', 'a', 't', 'a', ':', ' ', 't']]
          ++ List.filterMap
            (decodeLine
              (fun s => if s = ['t'] then some (ChatSSEEvent.token (some "T")) else none))
            [] :=
  (malformed_frame_resilience
      (fun s => if s = ['t'] then some (ChatSSEEvent.token (some "T")) else none)
      [['d', 'a', 't', 'a', ':', ' ', 't']] [] ['x'] 500
      (by decide) (by decide) (by decide) (by decide)).2.1

/-- When no invoked callback mutates the listener set, the walk from
position `i` fires exactly the live entries from `i` on, in order, and
leaves the entry list unchanged, provided the fuel covers the remaining
entries. -/
theorem notifyAux_no_mutation (env : Nat → List SubAction) (h : ∀ i, env i = []) :
    ∀ (fuel i : Nat) (es : List ListenerEntry), es.length - i ≤ fuel →
      notifyAux env fuel i es = (liveIds (es.drop i), es) := by
  intro fuel
  induction fuel with
  | zero =>
    intro i es hfuel
    have hlen : es.length ≤ i := by omega
    rw [List.drop_eq_nil_of_le hlen]
    rfl
  | succ fuel ih =>
    intro i es hfuel
    simp only [notifyAux]
    cases hg : es.get? i with
    | none =>
      have hlen : es.length ≤ i := List.get?_eq_none.mp hg
      rw [List.drop_eq_nil_of_le hlen]
      rfl
    | some en =>
      have hlt : i < es.length := (List.get?_eq_some.mp hg).1
      have hdrop : es.drop i = en :: es.drop (i + 1) := by
        rw [List.drop_eq_getElem_cons hlt]
        have := (List.get?_eq_some.mp hg).2
        simp at this
        rw [this]
      have hrec : es.length - (i + 1) ≤ fuel := by omega
      by_cases hlive : en.live
      · have hacts : applySubActions (env en.id) es = es := by
          rw [h en.id]; rfl
        simp only [hacts, hlive, if_true, ih (i + 1) es hrec, hdrop]
        simp [liveIds, hlive]
      · simp only [hlive, if_false, ih (i + 1) es hrec, hdrop]
        simp [liveIds, hlive]

/-- C4 — counterexample.  One registered listener whose callback
subscribes a new listener during notification: the code iterates the live
`Set`, not a snapshot, so the listener added during notification fires
for that very publish, although it was not registered at the moment of
the call. -/
theorem publish_snapshot_counterexample :
    (setResults (fun i => match i with | 0 => [SubAction.sub 1] | _ => []) 3
        { state := { items := [], query := "" },
          entries := [{ id := 0, live := true }] }
        [] "q").2 = [0, 1]
      ∧ liveIds [{ id := 0, live := true }] = [0]
      ∧ (1 : Nat) ∉ ([0] : List Nat) := by
  refine ⟨rfl, rfl, ?_⟩
  decide

/-- C4 — amended.  `setResults(items, query)` replaces the current batch
with the given items and query before notifying and synchronously invokes
the subscribers by iterating the live listener set in insertion order —
not a stable snapshot: when no callback mutates the set during
notification, every listener registered at the moment of the call is
invoked exactly once, in registration order, and the set is unchanged;
but a listener subscribed from inside a callback is also invoked for that
same publish, and one unsubscribed before its turn is skipped. -/
theorem publish_notify_amended :
    ∀ (env : Nat → List SubAction) (fuel : Nat) (st : StoreState)
      (items : List ResultItem) (query : String),
      (getResults (setResults env fuel st items query).1
          = { items := items, query := query })
      ∧ ((∀ i, env i = []) → st.entries.length ≤ fuel →
          (setResults env fuel st items query).2 = liveIds st.entries
            ∧ (setResults env fuel st items query).1.entries = st.entries) := by
  intro env fuel st items query
  constructor
  · cases hn : notifyAux env fuel 0 st.entries with
    | mk fired es => simp [setResults, getResults, hn]
  · intro hmut hfuel
    have hlen : st.entries.length - 0 ≤ fuel := by omega
    have hn := notifyAux_no_mutation env hmut fuel 0 st.entries hlen
    rw [List.drop_zero] at hn
    constructor
    · simp [setResults, hn]
    · simp [setResults, hn]

theorem publish_notify_amended_witness :
    (setResults (fun _ => []) 1 initStore [] "q").2 = liveIds initStore.entries :=
  ((publish_notify_amended (fun _ => []) 1 initStore [] "q").2
      (fun _ => rfl) (by decide)).1

/-- C8 — `getResults` returns the whole most recently published batch:
before any publish it is the empty batch, immediately after a publish it
is exactly the published items and query (also after later
subscriptions), and a listener subscribed only after a publish is not
among those invoked by that earlier publish — subscription never replays
past batches. -/
theorem getResults_latest :
    (getResults initStore = { items := [], query := "" })
      ∧ ∀ (env : Nat → List SubAction) (fuel : Nat) (st : StoreState)
          (items : List ResultItem) (query : String) (i : Nat),
          (getResults (subscribeStore (setResults env fuel st items query).1 i)
              = { items := items, query := query })
          ∧ ((∀ j, env j = []) → st.entries.length ≤ fuel →
              i ∉ liveIds st.entries →
              i ∉ (setResults env fuel st items query).2) := by
  constructor
  · rfl
  · intro env fuel st items query i
    constructor
    · cases hn : notifyAux env fuel 0 st.entries with
      | mk fired es => simp [setResults, getResults, subscribeStore, hn]
    · intro hmut hfuel hnotin
      have hlen : st.entries.length - 0 ≤ fuel := by omega
      have hn := notifyAux_no_mutation env hmut fuel 0 st.entries hlen
      rw [List.drop_zero] at hn
      simpa [setResults, hn] using hnotin

theorem getResults_latest_witness :
    (0 : Nat) ∉ (setResults (fun _ => []) 1 initStore [] "q").2 :=
  (getResults_latest.2 (fun _ => []) 1 initStore [] "q" 0).2
    (fun _ => rfl) (by decide) (by decide)

end Atlas
